import Mathlib

/-!
Verification of the selection-engine logic of the module-planner UI.

The development shallowly embeds the planner logic found in the repository's
component revisions.  Two revisions carry the logic the claims are about:

* variant A — `components/ui/module-planner.tsx`: the selection set is a map
  from semester number to a list of selected instance uuids (modelled as an
  association list `List (Nat × List String)`), and prerequisite lookups use
  the precomputed `prerequisiteCodes` field;
* variant B — the flat-list revision (`ModulePlanner.tsx`): the selection set
  is a flat `List String` of uuids, prerequisites are URIs whose code is the
  last `/`-separated component, and each instance carries a `semesters` list.

Definitions with an `A`/`B` suffix embed the correspondingly named function of
that revision; unsuffixed definitions are common to both.
-/

namespace Planner

/-- Catalog-level module record.  This merges the record types of the two
revisions: variant A uses `prerequisiteCodes`, variant B uses `prerequisites`
(URIs) together with `semesters`.  Fields not used by the embedded logic
(display strings such as lecturers, literature, workloads) are omitted. -/
structure Module where
  uuid : String
  id : Nat
  code : String
  name : String
  ects : Nat
  prerequisites : List String
  prerequisiteCodes : List String
  semesters : List Nat
  subjectArea : List String
deriving DecidableEq, Repr

/-- Study requirement for one subject area (`SubjectAreaRequirement`). -/
structure SubjectAreaRequirement where
  name : String
  minCredits : Nat
  maxCredits : Nat
deriving DecidableEq, Repr

/-- Collapse every maximal run of whitespace characters into a single space,
mirroring the JavaScript `replace(/\s+/g, ' ')`. -/
def collapseWs : List Char → List Char
  | [] => []
  | [c] => [if c.isWhitespace then ' ' else c]
  | c1 :: c2 :: rest =>
    if c1.isWhitespace && c2.isWhitespace then collapseWs (c2 :: rest)
    else (if c1.isWhitespace then ' ' else c1) :: collapseWs (c2 :: rest)

/-- `normalizeName` of both revisions: trim, lower-case, turn underscores into
spaces, and collapse whitespace runs. -/
def normalizeName (name : String) : String :=
  ⟨collapseWs ((name.trim.toLower.map fun c => if c = '_' then ' ' else c).data)⟩

/-- Extract the module code from a prerequisite URI: the JavaScript
`uri.split('/').pop() || uri`. -/
def extractCode (uri : String) : String :=
  let lastPart := ((uri.splitOn "/").getLast?).getD ""
  if lastPart = "" then uri else lastPart

/-- `Math.min(...xs)` over a number list: `none` models the `Infinity`
produced on an empty list. -/
def minSem : List Nat → Option Nat
  | [] => none
  | x :: xs =>
    match minSem xs with
    | none => some x
    | some y => some (min x y)

/-- Strict `<` on numbers-with-`Infinity` (`none` is `Infinity`), as used by
the JavaScript comparison `Math.min(...) < currentSemester`. -/
def ltInf : Option Nat → Option Nat → Bool
  | none, _ => false
  | some _, none => true
  | some a, some b => decide (a < b)

/-- JavaScript `Map.set` on an association list: update the existing entry in
place if the key is present, otherwise append. -/
def mapSet : List (String × Nat) → String → Nat → List (String × Nat)
  | [], k, v => [(k, v)]
  | (k', v') :: rest, k, v =>
    if k' = k then (k, v) :: rest else (k', v') :: mapSet rest k v

/-- JavaScript `Map.get`. -/
def mapGet? (m : List (String × Nat)) (k : String) : Option Nat :=
  (m.find? fun p => p.1 == k).map Prod.snd

/-- JavaScript `Map.has`. -/
def mapHas (m : List (String × Nat)) (k : String) : Bool :=
  (m.find? fun p => p.1 == k).isSome

/-- Variant A selection set: semester number to selected uuids.  `getBucket`
is `selectedModules[sem] || []`. -/
def getBucket (selM : List (Nat × List String)) (sem : Nat) : List String :=
  ((selM.find? fun p => p.1 == sem).map Prod.snd).getD []

/-- Variant A bucket update `{...prev, [sem]: v}`. -/
def setBucket : List (Nat × List String) → Nat → List String → List (Nat × List String)
  | [], sem, v => [(sem, v)]
  | (s, u) :: rest, sem, v =>
    if s = sem then (sem, v) :: rest else (s, u) :: setBucket rest sem v

/-- `Object.values(selectedModules).flat()` of variant A. -/
def flatSel (selM : List (Nat × List String)) : List String :=
  (selM.map Prod.snd).flatten

/-- The `isOutOfLimits` flag computed in the progress drawer:
`currentCredits < area.minCredits || currentCredits > area.maxCredits`. -/
def isOutOfLimits (minCredits maxCredits currentCredits : Nat) : Bool :=
  decide (currentCredits < minCredits) || decide (currentCredits > maxCredits)

/-- Variant A `arePrerequisitesFulfilled`: for every entry of
`prerequisiteCodes`, scan semesters `1 … currentSemester` (inclusive) for the
catalog module with that code being selected in that semester's bucket. -/
def arePrerequisitesFulfilledA (mods : List Module)
    (selM : List (Nat × List String)) (m : Module) (currentSemester : Nat) : Bool :=
  m.prerequisiteCodes.all fun prereqCode =>
    (List.range' 1 currentSemester).any fun sem =>
      match mods.find? (fun x => x.code == prereqCode) with
      | none => false
      | some pm => (getBucket selM sem).contains pm.uuid

/-- Variant B `arePrerequisitesFulfilled`: for every prerequisite URI, some
catalog module with the extracted code is selected and its (minimum) semester
is strictly earlier than `currentSemester`. -/
def arePrerequisitesFulfilledB (mods : List Module) (sel : List String)
    (m : Module) (currentSemester : Option Nat) : Bool :=
  m.prerequisites.all fun prereqUri =>
    (mods.find? fun x =>
      x.code == extractCode prereqUri && sel.contains x.uuid &&
        ltInf (minSem x.semesters) currentSemester).isSome

/-- Direct dependents used by variant A's `getDependentModules` traversal:
catalog modules whose `prerequisiteCodes` contain `m.code` and which are
currently selected. -/
def directDependentsA (mods : List Module) (sel : List String) (m : Module) : List Module :=
  mods.filter fun x => x.prerequisiteCodes.contains m.code && sel.contains x.uuid

/-- Direct dependents used by variant B's `getDependentModules` traversal:
the prerequisite edge is matched on the code extracted from each URI. -/
def directDependentsB (mods : List Module) (sel : List String) (m : Module) : List Module :=
  mods.filter fun x =>
    (x.prerequisites.any fun prereqUri => extractCode prereqUri == m.code) &&
      sel.contains x.uuid

/-- Fuelled form of the unguarded recursive `traverseDependencies` shared by
all revisions.  `travList direct n ms` produces, for each `m` in `ms` in
order, `direct m` followed by the recursive output for `direct m` — exactly
the order in which the JavaScript `dependentModules.push(...)` accumulates.
The source recursion carries no visited set; the `fuel` parameter makes the
possibly divergent recursion total, with `none` meaning the fuel ran out. -/
def travList (direct : Module → List Module) : Nat → List Module → Option (List Module)
  | 0, _ => none
  | _ + 1, [] => some []
  | n + 1, m :: ms =>
    match travList direct n (direct m), travList direct n ms with
    | some r, some rs => some (direct m ++ r ++ rs)
    | _, _ => none

/-- Variant A `getDependentModules`: look the target up by uuid, then run the
traversal from it.  A uuid with no catalog module yields the empty list. -/
def getDependentModulesA (mods : List Module) (sel : List String)
    (fuel : Nat) (moduleUuid : String) : Option (List Module) :=
  match mods.find? (fun m => m.uuid == moduleUuid) with
  | none => some []
  | some m =>
    match travList (directDependentsA mods sel) fuel (directDependentsA mods sel m) with
    | none => none
    | some rest => some (directDependentsA mods sel m ++ rest)

/-- Variant B `getDependentModules`. -/
def getDependentModulesB (mods : List Module) (sel : List String)
    (fuel : Nat) (moduleUuid : String) : Option (List Module) :=
  match mods.find? (fun m => m.uuid == moduleUuid) with
  | none => some []
  | some m =>
    match travList (directDependentsB mods sel) fuel (directDependentsB mods sel m) with
    | none => none
    | some rest => some (directDependentsB mods sel m ++ rest)

/-- The dependent-traversal computation completes on some fuel.  The
JavaScript recursion (which has no fuel) terminates exactly when this holds. -/
def DeselectTraversalTerminatesA (mods : List Module) (sel : List String)
    (moduleUuid : String) : Prop :=
  ∃ fuel r, getDependentModulesA mods sel fuel moduleUuid = some r

/-- One prerequisite edge of variant A's dependency graph, restricted to
selected instances: `d` directly depends on `m`. -/
def DirectDepA (mods : List Module) (sel : List String) (m d : Module) : Prop :=
  d ∈ mods ∧ m.code ∈ d.prerequisiteCodes ∧ d.uuid ∈ sel

/-- Variant B `deselectModule`, generalised to a work list.  React state
semantics: every `setSelectedModules(prev => …)` composes onto the pending
value (threaded through as `pending`), while plain reads of `selectedModules`
(inside `getDependentModules`) see the stale `snapshot` captured at render
time.  Each work item removes the uuid, then (if the uuid resolves) pushes the
uuids of its dependents, depth first, exactly like the `forEach` recursion. -/
def deselectListB (mods : List Module) (snapshot : List String) :
    Nat → List String → List String → Option (List String)
  | 0, _, _ => none
  | _ + 1, [], pending => some pending
  | n + 1, u :: us, pending =>
    let pending1 := pending.filter fun x => x ≠ u
    match mods.find? (fun m => m.uuid == u) with
    | none => deselectListB mods snapshot n us pending1
    | some _ =>
      match getDependentModulesB mods snapshot n u with
      | none => none
      | some deps =>
        match deselectListB mods snapshot n (deps.map Module.uuid) pending1 with
        | none => none
        | some pending2 => deselectListB mods snapshot n us pending2

/-- Variant A `deselectModule`, generalised to a work list of
(uuid, semester) pairs.  As in variant B, functional updates thread through
`pending` while `getDependentModules` and the dependent-semester lookup read
the stale `snapshot`.  The JavaScript `prev[semesterNumber].filter` would
throw on a missing bucket; `getBucket`'s `[]` default stands in for that
unreachable case. -/
def deselectListA (mods : List Module) (snapshot : List (Nat × List String)) :
    Nat → List (String × Nat) → List (Nat × List String) → Option (List (Nat × List String))
  | 0, _, _ => none
  | _ + 1, [], pending => some pending
  | n + 1, (u, sem) :: rest, pending =>
    let pending1 := setBucket pending sem ((getBucket pending sem).filter fun x => x ≠ u)
    match mods.find? (fun m => m.uuid == u) with
    | none => deselectListA mods snapshot n rest pending1
    | some _ =>
      match getDependentModulesA mods (flatSel snapshot) n u with
      | none => none
      | some deps =>
        let tasks := deps.filterMap fun d =>
          (snapshot.find? fun p => p.2.contains d.uuid).map fun p => (d.uuid, p.1)
        match deselectListA mods snapshot n tasks pending1 with
        | none => none
        | some pending2 => deselectListA mods snapshot n rest pending2

/-- Component state of variant A touched by the embedded handlers. -/
structure StateA where
  selectedModules : List (Nat × List String)
  dialogModules : List Module
  moduleToDeselect : Option Module
  openDialog : Bool
deriving DecidableEq, Repr

/-- Component state of variant B touched by the embedded handlers. -/
structure StateB where
  selectedModules : List String
  dialogModules : List Module
  moduleToDeselect : Option Module
  openDialog : Bool
deriving DecidableEq, Repr

/-- Variant A `handleModuleSelection`.  `none` models the divergence of the
unguarded dependent traversal (never reached on acyclic data). -/
def handleModuleSelectionA (mods : List Module) (fuel : Nat) (st : StateA)
    (moduleUuid : String) (semesterNumber : Nat) : Option StateA :=
  match mods.find? (fun m => m.uuid == moduleUuid) with
  | none => some st
  | some clickedModule =>
    if (getBucket st.selectedModules semesterNumber).contains moduleUuid then
      match getDependentModulesA mods (flatSel st.selectedModules) fuel moduleUuid with
      | none => none
      | some dependentModules =>
        if dependentModules.length > 0 then
          some { st with
            dialogModules := dependentModules
            moduleToDeselect := some clickedModule
            openDialog := true }
        else
          match deselectListA mods st.selectedModules fuel
              [(moduleUuid, semesterNumber)] st.selectedModules with
          | none => none
          | some sel' => some { st with selectedModules := sel' }
    else
      if !arePrerequisitesFulfilledA mods st.selectedModules clickedModule semesterNumber then
        some st
      else if st.selectedModules.any
          (fun p => !(p.1 == semesterNumber) && p.2.contains moduleUuid) then
        some st
      else
        let newBucket := getBucket st.selectedModules semesterNumber ++ [moduleUuid]
        some { st with selectedModules := setBucket st.selectedModules semesterNumber newBucket }

/-- Variant B `handleModuleSelection`. -/
def handleModuleSelectionB (mods : List Module) (fuel : Nat) (st : StateB)
    (moduleUuid : String) : Option StateB :=
  match mods.find? (fun m => m.uuid == moduleUuid) with
  | none => some st
  | some clickedModule =>
    let currentSemester := minSem clickedModule.semesters
    if st.selectedModules.contains moduleUuid then
      match getDependentModulesB mods st.selectedModules fuel moduleUuid with
      | none => none
      | some dependentModules =>
        if dependentModules.length > 0 then
          some { st with
            dialogModules := dependentModules
            moduleToDeselect := some clickedModule
            openDialog := true }
        else
          match deselectListB mods st.selectedModules fuel
              [moduleUuid] st.selectedModules with
          | none => none
          | some sel' => some { st with selectedModules := sel' }
    else
      if !arePrerequisitesFulfilledB mods st.selectedModules clickedModule currentSemester then
        some st
      else
        match mods.find?
            (fun m => st.selectedModules.contains m.uuid && m.code == clickedModule.code) with
        | none =>
          some { st with selectedModules := st.selectedModules ++ [moduleUuid] }
        | some existingSelectedInstance =>
          some { st with selectedModules :=
            (st.selectedModules.filter fun u => u ≠ existingSelectedInstance.uuid)
              ++ [moduleUuid] }

/-- The pure effect on the selection set of applying a deselection plan, as
performed by variant B's `handleConfirmDeselection`: filter out the target,
then each listed dependent in order. -/
def applyDeselection (target : Module) (dependents : List Module)
    (sel : List String) : List String :=
  dependents.foldl (fun s m => s.filter fun u => u ≠ m.uuid)
    (sel.filter fun u => u ≠ target.uuid)

/-- Variant B `handleConfirmDeselection`: if a deselection is pending, remove
the target and every dialog-listed dependent, close the dialog and clear the
pending target. -/
def handleConfirmDeselectionB (st : StateB) : StateB :=
  match st.moduleToDeselect with
  | none => st
  | some moduleToDeselect =>
    { st with
      selectedModules := applyDeselection moduleToDeselect st.dialogModules st.selectedModules
      openDialog := false
      moduleToDeselect := none }

/-- Initial variant B state: selection hydrates empty. -/
def initialStateB : StateB :=
  { selectedModules := [], dialogModules := [], moduleToDeselect := none, openDialog := false }

/-- Run a sequence of user clicks (select/deselect requests) through variant
B's `handleModuleSelection`, starting from the empty selection. -/
def runSelectionsB (mods : List Module) (fuel : Nat) (ops : List String) : Option StateB :=
  ops.foldlM (fun st u => handleModuleSelectionB mods fuel st u) initialStateB

/-- Every uuid resolves to at most one catalog module (uuids are freshly
generated per instance by `uuidv4`). -/
def UuidInjective (mods : List Module) : Prop :=
  ∀ m1 ∈ mods, ∀ m2 ∈ mods, m1.uuid = m2.uuid → m1 = m2

/-- Invariant I1 on a flat selection: two distinct selected uuids never
resolve to modules with the same code. -/
def codeUnique (mods : List Module) (sel : List String) : Prop :=
  List.Pairwise
    (fun u v => ∀ mu ∈ mods, ∀ mv ∈ mods, mu.uuid = u → mv.uuid = v → mu.code ≠ mv.code)
    sel

/-- Inner loop of `calculateSubjectAreaProgress` for a single resolved
module: add its `ects` to every declared subject area already present in the
progress map (areas not defined in the requirements are skipped with a
console warning in the source). -/
def addModuleCredits (m : Module) (acc : List (String × Nat)) : List (String × Nat) :=
  m.subjectArea.foldl
    (fun acc2 area =>
      let normalizedArea := normalizeName area
      if mapHas acc2 normalizedArea then
        mapSet acc2 normalizedArea ((mapGet? acc2 normalizedArea).getD 0 + m.ects)
      else acc2)
    acc

/-- Variant B `calculateSubjectAreaProgress` (variant A is the same
computation applied to the flattened semester buckets): initialise every
requirement's normalised name to 0, then fold every selected uuid that
resolves to a module through `addModuleCredits`. -/
def calculateSubjectAreaProgress (studyRequirements : List SubjectAreaRequirement)
    (mods : List Module) (sel : List String) : List (String × Nat) :=
  let init := studyRequirements.foldl
    (fun acc area => mapSet acc (normalizeName area.name) 0) []
  sel.foldl
    (fun acc uuid =>
      match mods.find? (fun m => m.uuid == uuid) with
      | none => acc
      | some m => addModuleCredits m acc)
    init

/-- Credits the specification attributes to a category: the sum of `ects`
over the selected instances that declare the category among their subject
areas (spec-side definition used to state the aggregation claim). -/
def selectedCreditsFor (mods : List Module) (sel : List String) (category : String) : Nat :=
  (sel.map fun uuid =>
    match mods.find? (fun m => m.uuid == uuid) with
    | some m => if m.subjectArea.any (fun a => normalizeName a == category) then m.ects else 0
    | none => 0).sum

/-- Every code resolves to at most one catalog module (the spec's data model:
`code` is unique within a catalog). -/
def CodeInjective (mods : List Module) : Prop :=
  ∀ m1 ∈ mods, ∀ m2 ∈ mods, m1.code = m2.code → m1 = m2

/-- Initial variant A state: the selection hydrates to the empty object. -/
def initialStateA : StateA :=
  { selectedModules := [], dialogModules := [], moduleToDeselect := none, openDialog := false }

/-- Test catalog entry with code "P" and no prerequisites. -/
def modP : Module :=
  { uuid := "uP", id := 1, code := "P", name := "P", ects := 5,
    prerequisites := [], prerequisiteCodes := [], semesters := [1], subjectArea := [] }

/-- Test catalog entry with code "Q" requiring "P". -/
def modQ : Module :=
  { uuid := "uQ", id := 2, code := "Q", name := "Q", ects := 6,
    prerequisites := ["P"], prerequisiteCodes := ["P"], semesters := [1], subjectArea := [] }

theorem contains_iff_mem {α : Type} [BEq α] [LawfulBEq α] (l : List α) (a : α) :
    l.contains a = true ↔ a ∈ l := by
  simp [List.contains]

/-- C7: a requirement category is flagged out of bounds exactly when the
aggregated total is strictly below `minCredits` or strictly above
`maxCredits`; a total equal to either bound is in bounds. -/
theorem isOutOfLimits_spec (minCredits maxCredits currentCredits : Nat) :
    (isOutOfLimits minCredits maxCredits currentCredits = true ↔
      (currentCredits < minCredits ∨ maxCredits < currentCredits)) ∧
    (minCredits ≤ maxCredits →
      isOutOfLimits minCredits maxCredits minCredits = false ∧
      isOutOfLimits minCredits maxCredits maxCredits = false) := by
  refine ⟨by simp [isOutOfLimits], fun h => ⟨?_, ?_⟩⟩ <;> simp [isOutOfLimits] <;> omega

/-- C7 witness: with bounds 5 and 10, totals of exactly 5 and exactly 10 are
not flagged. -/
theorem isOutOfLimits_spec_witness :
    isOutOfLimits 5 10 5 = false ∧ isOutOfLimits 5 10 10 = false :=
  (isOutOfLimits_spec 5 10 0).2 (by decide)

/-- C10: clicking an identifier that resolves to no catalog module leaves the
state unchanged in both revisions. -/
theorem handleModuleSelection_unknown_uuid_noop :
    (∀ mods fuel st u sem, mods.find? (fun m => m.uuid == u) = none →
      handleModuleSelectionA mods fuel st u sem = some st) ∧
    (∀ mods fuel st u, mods.find? (fun m => m.uuid == u) = none →
      handleModuleSelectionB mods fuel st u = some st) := by
  constructor
  · intro mods fuel st u sem h
    simp [handleModuleSelectionA, h]
  · intro mods fuel st u h
    simp [handleModuleSelectionB, h]

/-- C10 witness: on the empty catalog the handlers return the state they were
given. -/
theorem handleModuleSelection_unknown_uuid_noop_witness :
    handleModuleSelectionA [] 0 initialStateA "missing" 1 = some initialStateA ∧
    handleModuleSelectionB [] 0 initialStateB "missing" = some initialStateB :=
  ⟨handleModuleSelection_unknown_uuid_noop.1 [] 0 initialStateA "missing" 1 rfl,
   handleModuleSelection_unknown_uuid_noop.2 [] 0 initialStateB "missing" rfl⟩

/-- C8: a selection attempt that is blocked — prerequisites unmet, or the
module already selected in a different semester — performs no state change. -/
theorem handleModuleSelection_blocked_no_change
    (mods : List Module) (fuel : Nat) (st : StateA) (u : String) (sem : Nat)
    (clicked : Module)
    (hfind : mods.find? (fun m => m.uuid == u) = some clicked)
    (hnotsel : (getBucket st.selectedModules sem).contains u = false)
    (hblock : arePrerequisitesFulfilledA mods st.selectedModules clicked sem = false ∨
      st.selectedModules.any (fun p => !(p.1 == sem) && p.2.contains u) = true) :
    handleModuleSelectionA mods fuel st u sem = some st := by
  simp only [handleModuleSelectionA, hfind, hnotsel]
  cases hblock with
  | inl h => simp [h]
  | inr h =>
    cases hful : arePrerequisitesFulfilledA mods st.selectedModules clicked sem <;>
      simp only [hful, h, Bool.not_true, Bool.not_false, Bool.false_eq_true, if_true, if_false,
        ite_true, ite_false, ite_self]

/-- C8 witness: selecting "Q" into semester 1 while its prerequisite "P" is
unselected is rejected and leaves the (empty) selection untouched. -/
theorem handleModuleSelection_blocked_no_change_witness :
    handleModuleSelectionA [modP, modQ] 3 initialStateA "uQ" 1 = some initialStateA :=
  handleModuleSelection_blocked_no_change [modP, modQ] 3 initialStateA "uQ" 1 modQ
    (by decide) (by decide) (Or.inl (by decide))

/-- C9: on a diamond-shaped dependency graph (Q and R both require P, S
requires both Q and R, all selected) the traversal lists the shared dependent
S twice — direct dependents are appended without deduplication. -/
theorem getDependentModules_diamond_duplicate :
    getDependentModulesA
      [ { uuid := "uP", id := 1, code := "P", name := "P", ects := 1,
          prerequisites := [], prerequisiteCodes := [], semesters := [1], subjectArea := [] },
        { uuid := "uQ", id := 2, code := "Q", name := "Q", ects := 1,
          prerequisites := [], prerequisiteCodes := ["P"], semesters := [2], subjectArea := [] },
        { uuid := "uR", id := 3, code := "R", name := "R", ects := 1,
          prerequisites := [], prerequisiteCodes := ["P"], semesters := [2], subjectArea := [] },
        { uuid := "uS", id := 4, code := "S", name := "S", ects := 1,
          prerequisites := [], prerequisiteCodes := ["Q", "R"], semesters := [3], subjectArea := [] } ]
      ["uP", "uQ", "uR", "uS"] 4 "uP" =
    some
      [ { uuid := "uQ", id := 2, code := "Q", name := "Q", ects := 1,
          prerequisites := [], prerequisiteCodes := ["P"], semesters := [2], subjectArea := [] },
        { uuid := "uR", id := 3, code := "R", name := "R", ects := 1,
          prerequisites := [], prerequisiteCodes := ["P"], semesters := [2], subjectArea := [] },
        { uuid := "uS", id := 4, code := "S", name := "S", ects := 1,
          prerequisites := [], prerequisiteCodes := ["Q", "R"], semesters := [3], subjectArea := [] },
        { uuid := "uS", id := 4, code := "S", name := "S", ects := 1,
          prerequisites := [], prerequisiteCodes := ["Q", "R"], semesters := [3], subjectArea := [] } ] := by
  decide

/-- C1 counterexample: in the `components/ui` revision a prerequisite selected
in the *same* semester satisfies the check — selecting "Q" into semester 1
with its prerequisite "P" also selected in semester 1 is accepted, where the
claim demands a strictly earlier semester and hence rejection. -/
theorem same_semester_prereq_accepted :
    arePrerequisitesFulfilledA [modP, modQ] [(1, ["uP"])] modQ 1 = true := by
  decide

/-- Malformed-catalog fixture: module "A" lists "B" as prerequisite. -/
def cycleA : Module :=
  { uuid := "uA", id := 1, code := "A", name := "A", ects := 3,
    prerequisites := [], prerequisiteCodes := ["B"], semesters := [1], subjectArea := [] }

/-- Malformed-catalog fixture: module "B" lists "A" as prerequisite. -/
def cycleB : Module :=
  { uuid := "uB", id := 2, code := "B", name := "B", ects := 3,
    prerequisites := [], prerequisiteCodes := ["A"], semesters := [1], subjectArea := [] }

/-- The two-module cyclic catalog of P5. -/
def cycleMods : List Module := [cycleA, cycleB]

/-- Both instances of the cyclic catalog are selected. -/
def cycleSel : List String := ["uA", "uB"]

theorem cycle_travList_none : ∀ n,
    travList (directDependentsA cycleMods cycleSel) n [cycleB] = none ∧
    travList (directDependentsA cycleMods cycleSel) n [cycleA] = none := by
  intro n
  induction n with
  | zero => exact ⟨rfl, rfl⟩
  | succ n ih =>
    have hdB : directDependentsA cycleMods cycleSel cycleB = [cycleA] := by decide
    have hdA : directDependentsA cycleMods cycleSel cycleA = [cycleB] := by decide
    constructor
    · rw [travList, hdB, ih.2]
    · rw [travList, hdA, ih.1]

theorem cycle_getDependentModules_none :
    ∀ fuel, getDependentModulesA cycleMods cycleSel fuel "uA" = none := by
  intro fuel
  have hfind : cycleMods.find? (fun m => m.uuid == "uA") = some cycleA := by decide
  have hdA : directDependentsA cycleMods cycleSel cycleA = [cycleB] := by decide
  simp only [getDependentModulesA, hfind, hdA, (cycle_travList_none fuel).1]

/-- C2: on the malformed two-module cyclic catalog with both instances
selected, the dependent traversal started from "A" never completes on any
fuel — the source recursion carries no visited set, so the JavaScript call
recurses through A → B → A … forever instead of terminating. -/
theorem getDependentModules_cycle_diverges :
    ¬ DeselectTraversalTerminatesA cycleMods cycleSel "uA" := by
  rintro ⟨fuel, r, hr⟩
  rw [cycle_getDependentModules_none fuel] at hr
  exact Option.noConfusion hr

/-- Self-referential fixture: module "C" lists its own code as prerequisite. -/
def loopC : Module :=
  { uuid := "uC", id := 1, code := "C", name := "C", ects := 3,
    prerequisites := [], prerequisiteCodes := ["C"], semesters := [1], subjectArea := [] }

theorem loop_travList_none : ∀ n,
    travList (directDependentsA [loopC] ["uC"]) n [loopC] = none := by
  intro n
  induction n with
  | zero => rfl
  | succ n ih =>
    have hd : directDependentsA [loopC] ["uC"] loopC = [loopC] := by decide
    rw [travList, hd, ih]

/-- C4 counterexample: for the selected self-referential instance "C" the
dependent computation never returns at all (no fuel completes it), so
`requestDeselect` does not return the transitive closure for every selected
instance and selection set. -/
theorem getDependentModules_self_loop_diverges :
    ¬ DeselectTraversalTerminatesA [loopC] ["uC"] "uC" := by
  rintro ⟨fuel, r, hr⟩
  have hfind : List.find? (fun m => m.uuid == "uC") [loopC] = some loopC := by decide
  have hd : directDependentsA [loopC] ["uC"] loopC = [loopC] := by decide
  rw [getDependentModulesA, hfind] at hr
  simp only [hd, loop_travList_none fuel] at hr
  exact Option.noConfusion hr

theorem transGen_cases_head {α : Type} {r : α → α → Prop} {a c : α}
    (h : Relation.TransGen r a c) : r a c ∨ ∃ b, r a b ∧ Relation.TransGen r b c := by
  induction h using Relation.TransGen.head_induction_on with
  | base h => exact Or.inl h
  | ih h' hsub _ => exact Or.inr ⟨_, h', hsub⟩

theorem mem_directDependentsA {mods : List Module} {sel : List String} {m d : Module} :
    d ∈ directDependentsA mods sel m ↔ DirectDepA mods sel m d := by
  simp [directDependentsA, DirectDepA, List.mem_filter, contains_iff_mem]

theorem transDep_selected {mods : List Module} {sel : List String} {a b : Module}
    (h : Relation.TransGen (DirectDepA mods sel) a b) : b.uuid ∈ sel := by
  induction h with
  | single h => exact h.2.2
  | tail _ h _ => exact h.2.2

theorem travList_sound (mods : List Module) (sel : List String) :
    ∀ n ds rs, travList (directDependentsA mods sel) n ds = some rs →
      ∀ e ∈ rs, ∃ d ∈ ds, Relation.TransGen (DirectDepA mods sel) d e := by
  intro n
  induction n with
  | zero => intro ds rs h; exact absurd h (by simp [travList])
  | succ n ih =>
    intro ds rs h
    cases ds with
    | nil =>
      rw [travList] at h
      injection h with h
      subst h
      intro e he
      exact absurd he (List.not_mem_nil e)
    | cons m ms =>
      cases h1 : travList (directDependentsA mods sel) n (directDependentsA mods sel m) with
      | none => rw [travList, h1] at h; exact absurd h (by simp)
      | some r =>
        cases h2 : travList (directDependentsA mods sel) n ms with
        | none => rw [travList, h1, h2] at h; exact absurd h (by simp)
        | some rs2 =>
          rw [travList, h1, h2] at h
          injection h with h
          subst h
          intro e he
          rcases List.mem_append.mp he with he | he
          · rcases List.mem_append.mp he with he | he
            · exact ⟨m, List.mem_cons_self m ms, Relation.TransGen.single
                (mem_directDependentsA.mp he)⟩
            · obtain ⟨d, hd, tg⟩ := ih _ _ h1 e he
              exact ⟨m, List.mem_cons_self m ms,
                Relation.TransGen.head (mem_directDependentsA.mp hd) tg⟩
          · obtain ⟨d, hd, tg⟩ := ih _ _ h2 e he
            exact ⟨d, List.mem_cons_of_mem m hd, tg⟩

theorem travList_complete (mods : List Module) (sel : List String) :
    ∀ n ds rs, travList (directDependentsA mods sel) n ds = some rs →
      ∀ d ∈ ds, ∀ e, Relation.TransGen (DirectDepA mods sel) d e → e ∈ rs := by
  intro n
  induction n with
  | zero => intro ds rs h; exact absurd h (by simp [travList])
  | succ n ih =>
    intro ds rs h
    cases ds with
    | nil => intro d hd; exact absurd hd (List.not_mem_nil d)
    | cons m ms =>
      cases h1 : travList (directDependentsA mods sel) n (directDependentsA mods sel m) with
      | none => rw [travList, h1] at h; exact absurd h (by simp)
      | some r =>
        cases h2 : travList (directDependentsA mods sel) n ms with
        | none => rw [travList, h1, h2] at h; exact absurd h (by simp)
        | some rs2 =>
          rw [travList, h1, h2] at h
          injection h with h
          subst h
          intro d hd e htg
          rcases List.mem_cons.mp hd with hd | hd
          · subst hd
            rcases transGen_cases_head htg with hstep | ⟨b, hb, htg'⟩
            · exact List.mem_append.mpr (Or.inl (List.mem_append.mpr
                (Or.inl (mem_directDependentsA.mpr hstep))))
            · exact List.mem_append.mpr (Or.inl (List.mem_append.mpr
                (Or.inr (ih _ _ h1 b (mem_directDependentsA.mpr hb) e htg'))))
          · exact List.mem_append.mpr (Or.inr (ih _ _ h2 d hd e htg))

/-- C4 (amended): whenever the dependent computation from a selected
instance's uuid completes (it need not: see the self-loop counterexample),
the returned list contains exactly the instances transitively reachable from
the target along prerequisite edges restricted to selected instances, and
every listed dependent is itself currently selected; the computation is a
pure function of the catalog and selection set.  (The result can list an
instance more than once — the claim's "exactly" holds as membership.) -/
theorem getDependentModules_transitive_closure
    (mods : List Module) (sel : List String) (fuel : Nat) (u : String)
    (m : Module) (r : List Module)
    (hfind : mods.find? (fun x => x.uuid == u) = some m)
    (hrun : getDependentModulesA mods sel fuel u = some r) :
    (∀ d, d ∈ r ↔ Relation.TransGen (DirectDepA mods sel) m d) ∧
    (∀ d ∈ r, d.uuid ∈ sel) := by
  simp only [getDependentModulesA, hfind] at hrun
  cases h1 : travList (directDependentsA mods sel) fuel (directDependentsA mods sel m) with
  | none => rw [h1] at hrun; exact absurd hrun (by simp)
  | some rest =>
    rw [h1] at hrun
    injection hrun with hrun
    subst hrun
    have hiff : ∀ d, d ∈ directDependentsA mods sel m ++ rest ↔
        Relation.TransGen (DirectDepA mods sel) m d := by
      intro d
      constructor
      · intro hd
        rcases List.mem_append.mp hd with hd | hd
        · exact Relation.TransGen.single (mem_directDependentsA.mp hd)
        · obtain ⟨c, hc, tg⟩ := travList_sound mods sel fuel _ rest h1 d hd
          exact Relation.TransGen.head (mem_directDependentsA.mp hc) tg
      · intro htg
        rcases transGen_cases_head htg with hstep | ⟨b, hb, htg'⟩
        · exact List.mem_append.mpr (Or.inl (mem_directDependentsA.mpr hstep))
        · exact List.mem_append.mpr (Or.inr (travList_complete mods sel fuel _ rest h1 b
            (mem_directDependentsA.mpr hb) d htg'))
    exact ⟨hiff, fun d hd => transDep_selected ((hiff d).mp hd)⟩

/-- C4 witness: on the catalog where "Q" requires "P" with both selected,
the dependents of "P" are exactly the selected instances transitively
depending on it, and each listed dependent is selected. -/
theorem getDependentModules_transitive_closure_witness :
    (∀ d, d ∈ [modQ] ↔ Relation.TransGen (DirectDepA [modP, modQ] ["uP", "uQ"]) modP d) ∧
    (∀ d ∈ [modQ], d.uuid ∈ ["uP", "uQ"]) :=
  getDependentModules_transitive_closure [modP, modQ] ["uP", "uQ"] 2 "uP" modP [modQ]
    (by decide) (by decide)

theorem prereqScanA_iff (mods : List Module) (selM : List (Nat × List String))
    (c : String) (S : Nat) (hinj : CodeInjective mods) :
    ((List.range' 1 S).any fun sem =>
      match mods.find? (fun x => x.code == c) with
      | none => false
      | some pm => (getBucket selM sem).contains pm.uuid) = true ↔
    ∃ pm ∈ mods, pm.code = c ∧ ∃ sem, 1 ≤ sem ∧ sem ≤ S ∧ pm.uuid ∈ getBucket selM sem := by
  cases hf : mods.find? (fun x => x.code == c) with
  | none =>
    simp only [List.any_eq_true]
    constructor
    · rintro ⟨sem, _, hfalse⟩
      exact absurd hfalse (by simp)
    · rintro ⟨pm, hpm, hcode, _⟩
      have := List.find?_eq_none.mp hf pm hpm
      simp [hcode] at this
  | some pm =>
    have hpm : pm ∈ mods := List.mem_of_find?_eq_some hf
    have hcode : pm.code = c := by simpa using List.find?_some hf
    simp only [List.any_eq_true]
    constructor
    · rintro ⟨sem, hsem, hcont⟩
      rw [List.mem_range'_1] at hsem
      exact ⟨pm, hpm, hcode, sem, hsem.1, by omega,
        (contains_iff_mem _ _).mp hcont⟩
    · rintro ⟨pm', hpm', hcode', sem, h1, h2, hmem⟩
      have hpe : pm' = pm := hinj pm' hpm' pm hpm (hcode'.trans hcode.symm)
      subst hpe
      exact ⟨sem, List.mem_range'_1.mpr ⟨h1, by omega⟩, (contains_iff_mem _ _).mpr hmem⟩

theorem prereqFindB_iff (mods : List Module) (sel : List String) (uri : String)
    (currentSemester : Option Nat) :
    (mods.find? fun x =>
      x.code == extractCode uri && sel.contains x.uuid &&
        ltInf (minSem x.semesters) currentSemester).isSome = true ↔
    ∃ pm ∈ mods, pm.code = extractCode uri ∧ pm.uuid ∈ sel ∧
      ltInf (minSem pm.semesters) currentSemester = true := by
  constructor
  · intro h
    cases hf : mods.find? (fun x =>
        x.code == extractCode uri && sel.contains x.uuid &&
          ltInf (minSem x.semesters) currentSemester) with
    | none => rw [hf] at h; exact absurd h (by simp)
    | some x =>
      have hx := List.find?_some hf
      have hxm := List.mem_of_find?_eq_some hf
      simp only [Bool.and_eq_true, beq_iff_eq] at hx
      exact ⟨x, hxm, hx.1.1, (contains_iff_mem _ _).mp hx.1.2, hx.2⟩
  · rintro ⟨pm, hpm, hcode, hsel, hlt⟩
    cases hf : mods.find? (fun x =>
        x.code == extractCode uri && sel.contains x.uuid &&
          ltInf (minSem x.semesters) currentSemester) with
    | none =>
      have hnone := List.find?_eq_none.mp hf pm hpm
      refine absurd ?_ hnone
      simp only [Bool.and_eq_true, beq_iff_eq]
      exact ⟨⟨hcode, (contains_iff_mem _ _).mpr hsel⟩, hlt⟩
    | some x => rfl

/-- C1 (amended): the flat-list revision checks the strictly-earlier-semester
rule exactly as claimed: the check fails precisely when some prerequisite
code has no selected instance whose semester is strictly less than the
target.  The `components/ui` revision, however, accepts same-semester
prerequisites: its check fails precisely when some prerequisite code has no
selected instance in a semester less than *or equal to* the target (so a
prerequisite selected in semester S does satisfy a selection into S there —
see the counterexample). -/
theorem arePrerequisitesFulfilled_earliness :
    (∀ (mods : List Module) (sel : List String) (m : Module) (S : Nat),
      arePrerequisitesFulfilledB mods sel m (some S) = false ↔
        ∃ uri ∈ m.prerequisites, ¬ ∃ pm ∈ mods, pm.code = extractCode uri ∧
          pm.uuid ∈ sel ∧ ltInf (minSem pm.semesters) (some S) = true) ∧
    (∀ (mods : List Module) (selM : List (Nat × List String)) (m : Module) (S : Nat),
      CodeInjective mods →
      (arePrerequisitesFulfilledA mods selM m S = false ↔
        ∃ c ∈ m.prerequisiteCodes, ¬ ∃ pm ∈ mods, pm.code = c ∧
          ∃ sem, 1 ≤ sem ∧ sem ≤ S ∧ pm.uuid ∈ getBucket selM sem)) := by
  have hposB : ∀ (mods : List Module) (sel : List String) (m : Module) (S : Nat),
      arePrerequisitesFulfilledB mods sel m (some S) = true ↔
        ∀ uri ∈ m.prerequisites, ∃ pm ∈ mods, pm.code = extractCode uri ∧
          pm.uuid ∈ sel ∧ ltInf (minSem pm.semesters) (some S) = true := by
    intro mods sel m S
    rw [arePrerequisitesFulfilledB, List.all_eq_true]
    exact forall_congr' fun uri => imp_congr Iff.rfl (prereqFindB_iff mods sel uri (some S))
  have hposA : ∀ (mods : List Module) (selM : List (Nat × List String)) (m : Module) (S : Nat),
      CodeInjective mods →
      (arePrerequisitesFulfilledA mods selM m S = true ↔
        ∀ c ∈ m.prerequisiteCodes, ∃ pm ∈ mods, pm.code = c ∧
          ∃ sem, 1 ≤ sem ∧ sem ≤ S ∧ pm.uuid ∈ getBucket selM sem) := by
    intro mods selM m S hinj
    rw [arePrerequisitesFulfilledA, List.all_eq_true]
    exact forall_congr' fun c => imp_congr Iff.rfl (prereqScanA_iff mods selM c S hinj)
  constructor
  · intro mods sel m S
    constructor
    · intro h
      by_contra hcon
      push_neg at hcon
      have : arePrerequisitesFulfilledB mods sel m (some S) = true :=
        (hposB mods sel m S).mpr fun uri huri => hcon uri huri
      rw [h] at this
      exact Bool.false_ne_true this
    · rintro ⟨uri, huri, hfail⟩
      cases hval : arePrerequisitesFulfilledB mods sel m (some S) with
      | false => rfl
      | true => exact absurd ((hposB mods sel m S).mp hval uri huri) hfail
  · intro mods selM m S hinj
    constructor
    · intro h
      by_contra hcon
      push_neg at hcon
      have : arePrerequisitesFulfilledA mods selM m S = true :=
        (hposA mods selM m S hinj).mpr fun c hc => hcon c hc
      rw [h] at this
      exact Bool.false_ne_true this
    · rintro ⟨c, hc, hfail⟩
      cases hval : arePrerequisitesFulfilledA mods selM m S with
      | false => rfl
      | true => exact absurd ((hposA mods selM m S hinj).mp hval c hc) hfail

/-- C1 witness: with nothing selected, selecting "Q" (which requires "P")
into semester 1 fails the check of the `components/ui` revision because no
instance of "P" is selected in any semester up to 1. -/
theorem arePrerequisitesFulfilled_earliness_witness :
    arePrerequisitesFulfilledA [modP, modQ] [] modQ 1 = false ↔
      ∃ c ∈ modQ.prerequisiteCodes, ¬ ∃ pm ∈ [modP, modQ], pm.code = c ∧
        ∃ sem, 1 ≤ sem ∧ sem ≤ 1 ∧ pm.uuid ∈ getBucket [] sem :=
  arePrerequisitesFulfilled_earliness.2 [modP, modQ] [] modQ 1
    (by unfold CodeInjective; decide)

theorem foldl_filter_sublist (deps : List Module) :
    ∀ s : List String,
      List.Sublist (deps.foldl (fun s m => s.filter fun u => u ≠ m.uuid) s) s := by
  induction deps with
  | nil => intro s; exact List.Sublist.refl s
  | cons d ds ih =>
    intro s
    exact (ih _).trans (List.filter_sublist s)

theorem foldl_filter_id (deps : List Module) :
    ∀ s : List String, (∀ d ∈ deps, d.uuid ∉ s) →
      deps.foldl (fun s m => s.filter fun u => u ≠ m.uuid) s = s := by
  induction deps with
  | nil => intro s _; rfl
  | cons d ds ih =>
    intro s hs
    have h1 : s.filter (fun u => u ≠ d.uuid) = s := by
      refine List.filter_eq_self.mpr fun a ha => ?_
      have hne : a ≠ d.uuid := by
        intro he
        exact hs d (List.mem_cons_self d ds) (he ▸ ha)
      simpa using hne
    rw [List.foldl_cons, h1]
    exact ih s fun e he => hs e (List.mem_cons_of_mem d he)

theorem applyDeselection_removes (target : Module) (deps : List Module) (sel : List String) :
    target.uuid ∉ applyDeselection target deps sel ∧
      ∀ d ∈ deps, d.uuid ∉ applyDeselection target deps sel := by
  constructor
  · intro hmem
    have := (foldl_filter_sublist deps _).subset hmem
    simp [List.mem_filter] at this
  · intro d hd
    rw [applyDeselection]
    generalize sel.filter (fun u => u ≠ target.uuid) = s
    clear sel
    induction deps generalizing s with
    | nil => exact absurd hd (List.not_mem_nil d)
    | cons d' ds ih =>
      rcases List.mem_cons.mp hd with hd | hd
      · subst hd
        intro hmem
        have := (foldl_filter_sublist ds _).subset hmem
        simp [List.mem_filter] at this
      · exact ih hd _

/-- C5: applying a deselection plan removes the target and every listed
dependent from the selection; the removal is idempotent, removing something
already absent is a no-op, and `handleConfirmDeselection` applies exactly
this pure removal to the pending selection. -/
theorem applyDeselection_spec (target : Module) (deps : List Module) (sel : List String) :
    target.uuid ∉ applyDeselection target deps sel ∧
    (∀ d ∈ deps, d.uuid ∉ applyDeselection target deps sel) ∧
    applyDeselection target deps (applyDeselection target deps sel) =
      applyDeselection target deps sel ∧
    (target.uuid ∉ sel → (∀ d ∈ deps, d.uuid ∉ sel) →
      applyDeselection target deps sel = sel) ∧
    (∀ st : StateB, st.moduleToDeselect = some target → st.dialogModules = deps →
      (handleConfirmDeselectionB st).selectedModules =
        applyDeselection target deps st.selectedModules) := by
  have hnoop : ∀ s : List String, target.uuid ∉ s → (∀ d ∈ deps, d.uuid ∉ s) →
      applyDeselection target deps s = s := by
    intro s ht hd
    rw [applyDeselection]
    have h1 : s.filter (fun u => u ≠ target.uuid) = s := by
      refine List.filter_eq_self.mpr fun a ha => ?_
      have hne : a ≠ target.uuid := by
        intro he
        exact ht (he ▸ ha)
      simpa using hne
    rw [h1]
    exact foldl_filter_id deps s hd
  obtain ⟨h1, h2⟩ := applyDeselection_removes target deps sel
  refine ⟨h1, h2, hnoop _ h1 h2, hnoop sel, ?_⟩
  intro st hsome hdeps
  simp [handleConfirmDeselectionB, hsome, hdeps]

/-- C5 witness: deselecting "P" with dependent "Q" from a selection that
contains neither is a no-op, and the plan's target is absent afterwards. -/
theorem applyDeselection_spec_witness :
    applyDeselection modP [modQ] ["uZ"] = ["uZ"] ∧
    "uP" ∉ applyDeselection modP [modQ] ["uZ"] :=
  ⟨(applyDeselection_spec modP [modQ] ["uZ"]).2.2.2.1 (by decide) (by decide),
   (applyDeselection_spec modP [modQ] ["uZ"]).1⟩

theorem deselectListB_sublist (mods : List Module) (snapshot : List String) :
    ∀ n us pending p', deselectListB mods snapshot n us pending = some p' →
      List.Sublist p' pending := by
  intro n
  induction n with
  | zero => intro us pending p' h; exact absurd h (by simp [deselectListB])
  | succ n ih =>
    intro us pending p' h
    cases us with
    | nil =>
      rw [deselectListB] at h
      injection h with h
      subst h
      exact List.Sublist.refl _
    | cons u us =>
      rw [deselectListB] at h
      split at h
      · exact (ih _ _ _ h).trans (List.filter_sublist pending)
      · split at h
        · exact absurd h (by simp)
        · split at h
          · exact absurd h (by simp)
          · rename_i pending2 hrec
            exact ((ih _ _ _ h).trans (ih _ _ _ hrec)).trans (List.filter_sublist pending)

theorem codeUnique_symm (mods : List Module) :
    Symmetric fun u v =>
      ∀ mu ∈ mods, ∀ mv ∈ mods, mu.uuid = u → mv.uuid = v → mu.code ≠ mv.code := by
  intro u v h mu hmu mv hmv h1 h2
  exact (h mv hmv mu hmu h2 h1).symm

theorem handleModuleSelectionB_preserves_codeUnique
    (mods : List Module) (hinj : UuidInjective mods) (fuel : Nat) (st st' : StateB)
    (u : String) (h : handleModuleSelectionB mods fuel st u = some st')
    (hcu : codeUnique mods st.selectedModules) : codeUnique mods st'.selectedModules := by
  rw [handleModuleSelectionB] at h
  split at h
  · injection h with h
    subst h
    exact hcu
  · rename_i clicked hfind
    have hclickedmem : clicked ∈ mods := List.mem_of_find?_eq_some hfind
    have hclickeduuid : clicked.uuid = u := by simpa using List.find?_some hfind
    split at h
    · -- the clicked module is currently selected: deselection path
      split at h
      · exact absurd h (by simp)
      · rename_i deps hdep
        split at h
        · injection h with h
          subst h
          exact hcu
        · split at h
          · exact absurd h (by simp)
          · rename_i sel' hds
            injection h with h
            subst h
            exact hcu.sublist (deselectListB_sublist mods st.selectedModules fuel _ _ _ hds)
    · -- selection path: the split first severs the conflicting-instance
      -- lookup, then the prerequisite gate inside each branch
      split at h
      · rename_i hex
        cases hful : arePrerequisitesFulfilledB mods st.selectedModules clicked
            (minSem clicked.semesters) with
        | false =>
          simp only [hful, Bool.not_false, if_true] at h
          injection h with h
          subst h
          exact hcu
        | true =>
          simp only [hful, Bool.not_true, Bool.false_eq_true, if_false] at h
          injection h with h
          subst h
          show codeUnique mods (st.selectedModules ++ [u])
          rw [codeUnique, List.pairwise_append]
          refine ⟨hcu, List.pairwise_singleton _ _, ?_⟩
          intro v hv b hb mu hmu mv hmv huv hvb
          have hb' : b = u := List.mem_singleton.mp hb
          subst hb'
          subst hvb
          have hmve : mv = clicked := hinj mv hmv clicked hclickedmem (by rw [hclickeduuid])
          subst hmve
          have hnone := List.find?_eq_none.mp hex mu hmu
          simp only [Bool.and_eq_true, beq_iff_eq, not_and] at hnone
          intro hcode
          exact hnone ((contains_iff_mem _ _).mpr (huv ▸ hv)) hcode
      · rename_i ex hex
        cases hful : arePrerequisitesFulfilledB mods st.selectedModules clicked
            (minSem clicked.semesters) with
        | false =>
          simp only [hful, Bool.not_false, if_true] at h
          injection h with h
          subst h
          exact hcu
        | true =>
          simp only [hful, Bool.not_true, Bool.false_eq_true, if_false] at h
          injection h with h
          subst h
          have hexmem : ex ∈ mods := List.mem_of_find?_eq_some hex
          have hexpred := List.find?_some hex
          simp only [Bool.and_eq_true, beq_iff_eq] at hexpred
          have hexsel : ex.uuid ∈ st.selectedModules := (contains_iff_mem _ _).mp hexpred.1
          have hexcode : ex.code = clicked.code := hexpred.2
          show codeUnique mods ((st.selectedModules.filter fun x => x ≠ ex.uuid) ++ [u])
          rw [codeUnique, List.pairwise_append]
          refine ⟨hcu.filter _, List.pairwise_singleton _ _, ?_⟩
          intro v hv b hb mu hmu mv hmv huv hvb
          have hb' : b = u := List.mem_singleton.mp hb
          subst hb'
          subst hvb
          have hmve : mv = clicked := hinj mv hmv clicked hclickedmem (by rw [hclickeduuid])
          subst hmve
          have hvsel : v ∈ st.selectedModules := (List.filter_sublist _).subset hv
          have hvne : v ≠ ex.uuid := by
            have := List.of_mem_filter hv
            simpa using this
          have hrel := hcu.forall (codeUnique_symm mods) hvsel hexsel hvne
          have : mu.code ≠ ex.code := hrel mu hmu ex hexmem huv rfl
          rw [hexcode] at this
          exact this

/-- C3: starting from the empty selection, after any sequence of clicks
handled by `handleModuleSelection` at most one instance of any code is
selected: an attempted selection of a code already selected elsewhere
atomically removes the previously selected instance of that code (flat-list
revision; the `components/ui` revision blocks instead), so invariant I1 is
preserved by every select. -/
theorem select_sequence_code_unique (mods : List Module) (fuel : Nat) (ops : List String)
    (st : StateB) (hinj : UuidInjective mods)
    (hrun : runSelectionsB mods fuel ops = some st) :
    codeUnique mods st.selectedModules := by
  have key : ∀ (ops : List String) (st0 st1 : StateB), codeUnique mods st0.selectedModules →
      List.foldlM (fun s u => handleModuleSelectionB mods fuel s u) st0 ops = some st1 →
      codeUnique mods st1.selectedModules := by
    intro ops
    induction ops with
    | nil =>
      intro st0 st1 hcu h
      rw [show List.foldlM (fun s u => handleModuleSelectionB mods fuel s u) st0
          ([] : List String) = some st0 from rfl] at h
      injection h with h
      subst h
      exact hcu
    | cons u us ih =>
      intro st0 st1 hcu h
      rw [show List.foldlM (fun s u => handleModuleSelectionB mods fuel s u) st0 (u :: us) =
          handleModuleSelectionB mods fuel st0 u >>= fun s1 =>
            List.foldlM (fun s u => handleModuleSelectionB mods fuel s u) s1 us from rfl] at h
      cases h1 : handleModuleSelectionB mods fuel st0 u with
      | none => rw [h1] at h; exact absurd h (by simp [Bind.bind])
      | some s1 =>
        rw [h1] at h
        exact ih s1 st1
          (handleModuleSelectionB_preserves_codeUnique mods hinj fuel st0 s1 u h1 hcu) h
  exact key ops initialStateB st List.Pairwise.nil hrun

/-- First instance of code "M" (offered in semester 1). -/
def dupM1 : Module :=
  { uuid := "u1", id := 7, code := "M", name := "M", ects := 4,
    prerequisites := [], prerequisiteCodes := [], semesters := [1], subjectArea := [] }

/-- Second instance of code "M" (offered in semester 2). -/
def dupM2 : Module :=
  { uuid := "u2", id := 7, code := "M", name := "M", ects := 4,
    prerequisites := [], prerequisiteCodes := [], semesters := [2], subjectArea := [] }

/-- C3 witness: selecting instance "u1" of code "M" and then instance "u2" of
the same code leaves exactly one instance of "M" selected (the second click
atomically replaces the first), so I1 holds after the sequence. -/
theorem select_sequence_code_unique_witness :
    codeUnique [dupM1, dupM2] ["u2"] :=
  select_sequence_code_unique [dupM1, dupM2] 1 ["u1", "u2"]
    { selectedModules := ["u2"], dialogModules := [], moduleToDeselect := none,
      openDialog := false }
    (by unfold UuidInjective; decide) (by decide)

theorem mapGet?_mapSet (m : List (String × Nat)) (k k' : String) (v : Nat) :
    mapGet? (mapSet m k v) k' = if k' = k then some v else mapGet? m k' := by
  induction m with
  | nil =>
    by_cases h : k' = k
    · subst h
      simp [mapSet, mapGet?, List.find?]
    · have h1 : (k == k') = false := by simpa using fun he => h he.symm
      simp [mapSet, mapGet?, List.find?, h1, h]
  | cons p rest ih =>
    obtain ⟨a, b⟩ := p
    simp only [mapSet]
    by_cases hak : a = k
    · subst hak
      simp only [if_pos rfl]
      by_cases hk' : k' = a
      · subst hk'
        simp [mapGet?, List.find?]
      · have h1 : (a == k') = false := by simpa using fun he => hk' he.symm
        simp [mapGet?, List.find?, h1, hk']
    · simp only [if_neg hak]
      by_cases hk' : k' = a
      · have h1 : (a == k') = true := by simp [hk']
        have h2 : ¬ k' = k := fun he => hak (hk'.symm.trans he)
        simp [mapGet?, List.find?, h1, h2]
      · have h1 : (a == k') = false := by simpa using fun he => hk' he.symm
        simp only [mapGet?, List.find?, h1] at ih ⊢
        simpa [mapGet?] using ih

theorem mapHas_eq_isSome (m : List (String × Nat)) (k : String) :
    mapHas m k = (mapGet? m k).isSome := by
  simp [mapHas, mapGet?, Option.isSome_map']

theorem mapGet?_areaFold (ects : Nat) :
    ∀ (areas : List String) (acc : List (String × Nat)) (k : String) (w : Nat),
      mapGet? acc k = some w → (areas.map normalizeName).Nodup →
      mapGet? (areas.foldl
        (fun acc2 area =>
          let normalizedArea := normalizeName area
          if mapHas acc2 normalizedArea then
            mapSet acc2 normalizedArea ((mapGet? acc2 normalizedArea).getD 0 + ects)
          else acc2) acc) k =
        some (w + if areas.any (fun a => normalizeName a == k) then ects else 0) := by
  intro areas
  induction areas with
  | nil =>
    intro acc k w hacc _
    simpa using hacc
  | cons a as ih =>
    intro acc k w hacc hnodup
    have hnodup' : (as.map normalizeName).Nodup := (List.nodup_cons.mp (by simpa using hnodup)).2
    rw [List.foldl_cons]
    by_cases hk : normalizeName a = k
    · have hhas : mapHas acc (normalizeName a) = true := by
        rw [hk, mapHas_eq_isSome, hacc]
        rfl
      have hnotin : normalizeName a ∉ as.map normalizeName :=
        (List.nodup_cons.mp (by simpa using hnodup)).1
      have hany : (as.any fun x => normalizeName x == k) = false := by
        rw [← Bool.not_eq_true, List.any_eq_true]
        rintro ⟨x, hx, hxk⟩
        rw [beq_iff_eq] at hxk
        exact hnotin (hk ▸ hxk ▸ List.mem_map_of_mem normalizeName hx)
      have hhas' : mapHas acc k = true := hk ▸ hhas
      have hstep : (let normalizedArea := normalizeName a;
          if mapHas acc normalizedArea then
            mapSet acc normalizedArea ((mapGet? acc normalizedArea).getD 0 + ects)
          else acc) = mapSet acc k (w + ects) := by
        simp only [hk, hhas', if_true, hacc, Option.getD_some]
      rw [hstep]
      have hget2 : mapGet? (mapSet acc k (w + ects)) k = some (w + ects) := by
        rw [mapGet?_mapSet]
        simp
      rw [ih _ k (w + ects) hget2 hnodup', hany]
      have hcond : ((a :: as).any fun x => normalizeName x == k) = true := by
        rw [List.any_cons]
        simp [hk]
      rw [hcond]
      simp
    · have hget2 : mapGet? (let normalizedArea := normalizeName a;
          if mapHas acc normalizedArea then
            mapSet acc normalizedArea ((mapGet? acc normalizedArea).getD 0 + ects)
          else acc) k = some w := by
        cases hhas : mapHas acc (normalizeName a) with
        | false => simpa [hhas] using hacc
        | true =>
          simp only [hhas, if_true]
          rw [mapGet?_mapSet]
          have hne : ¬ k = normalizeName a := fun he => hk he.symm
          rw [if_neg hne]
          exact hacc
      rw [ih _ k w hget2 hnodup']
      have hcond : ((a :: as).any fun x => normalizeName x == k) =
          (as.any fun x => normalizeName x == k) := by
        rw [List.any_cons]
        have : (normalizeName a == k) = false := by simpa using hk
        rw [this]
        simp
      rw [hcond]

theorem mapGet?_selFold (mods : List Module)
    (hm : ∀ m ∈ mods, (m.subjectArea.map normalizeName).Nodup) :
    ∀ (sel : List String) (acc : List (String × Nat)) (k : String) (w : Nat),
      mapGet? acc k = some w →
      mapGet? (sel.foldl (fun acc uuid =>
          match mods.find? (fun m => m.uuid == uuid) with
          | none => acc
          | some m => addModuleCredits m acc) acc) k =
        some (w + selectedCreditsFor mods sel k) := by
  intro sel
  induction sel with
  | nil =>
    intro acc k w hacc
    simpa [selectedCreditsFor] using hacc
  | cons u us ih =>
    intro acc k w hacc
    rw [List.foldl_cons]
    have hcons : selectedCreditsFor mods (u :: us) k =
        (match mods.find? (fun m => m.uuid == u) with
          | some m => if m.subjectArea.any (fun a => normalizeName a == k) then m.ects else 0
          | none => 0) + selectedCreditsFor mods us k := by
      rw [selectedCreditsFor, selectedCreditsFor, List.map_cons, List.sum_cons]
    cases hf : mods.find? (fun m => m.uuid == u) with
    | none =>
      rw [hcons, hf]
      rw [Nat.zero_add]
      exact ih acc k w hacc
    | some m =>
      have hmem : m ∈ mods := List.mem_of_find?_eq_some hf
      have hstep : mapGet? (addModuleCredits m acc) k =
          some (w + if m.subjectArea.any (fun a => normalizeName a == k) then m.ects else 0) :=
        mapGet?_areaFold m.ects m.subjectArea acc k w hacc (hm m hmem)
      rw [hcons, hf, ih _ k _ hstep, Nat.add_assoc]

theorem mapGet?_initFold :
    ∀ (studyRequirements : List SubjectAreaRequirement) (acc : List (String × Nat)) (k : String),
      (mapGet? acc k = some 0 ∨ k ∈ studyRequirements.map fun a => normalizeName a.name) →
      mapGet? (studyRequirements.foldl
        (fun acc area => mapSet acc (normalizeName area.name) 0) acc) k = some 0 := by
  intro studyRequirements
  induction studyRequirements with
  | nil =>
    intro acc k h
    rcases h with h | h
    · exact h
    · exact absurd h (by simp)
  | cons r rs ih =>
    intro acc k h
    rw [List.foldl_cons]
    apply ih
    by_cases hk : k = normalizeName r.name
    · left
      rw [mapGet?_mapSet]
      simp [hk]
    · rcases h with h | h
      · left
        rw [mapGet?_mapSet, if_neg hk]
        exact h
      · right
        rcases List.mem_map.mp h with ⟨a, ha, hak⟩
        rcases List.mem_cons.mp ha with ha | ha
        · subst ha
          exact absurd hak.symm hk
        · exact List.mem_map.mpr ⟨a, ha, hak⟩

/-- C6: for every requirement category, the progress map produced by
`calculateSubjectAreaProgress` holds exactly the sum of `ects` over the
currently selected instances that declare that category (each selected
instance contributing to every subject area it declares), and a category no
selected instance declares stays at 0.  Subject-area lists are taken
duplicate-free after normalisation, as in the spec's data model ("set of
category labels"). -/
theorem calculateSubjectAreaProgress_spec
    (studyRequirements : List SubjectAreaRequirement) (mods : List Module) (sel : List String)
    (hm : ∀ m ∈ mods, (m.subjectArea.map normalizeName).Nodup) :
    ∀ area ∈ studyRequirements,
      mapGet? (calculateSubjectAreaProgress studyRequirements mods sel)
          (normalizeName area.name) =
        some (selectedCreditsFor mods sel (normalizeName area.name)) ∧
      ((∀ u ∈ sel, ∀ m ∈ mods, m.uuid = u →
          (m.subjectArea.any fun a => normalizeName a == normalizeName area.name) = false) →
        mapGet? (calculateSubjectAreaProgress studyRequirements mods sel)
          (normalizeName area.name) = some 0) := by
  intro area harea
  have hinit : mapGet? (studyRequirements.foldl
      (fun acc area => mapSet acc (normalizeName area.name) 0) [])
      (normalizeName area.name) = some 0 :=
    mapGet?_initFold studyRequirements [] (normalizeName area.name)
      (Or.inr (List.mem_map.mpr ⟨area, harea, rfl⟩))
  have hmain : mapGet? (calculateSubjectAreaProgress studyRequirements mods sel)
      (normalizeName area.name) =
      some (selectedCreditsFor mods sel (normalizeName area.name)) := by
    rw [calculateSubjectAreaProgress]
    rw [mapGet?_selFold mods hm sel _ (normalizeName area.name) 0 hinit]
    rw [Nat.zero_add]
  refine ⟨hmain, fun hnone => ?_⟩
  have hzero : selectedCreditsFor mods sel (normalizeName area.name) = 0 := by
    rw [selectedCreditsFor]
    apply List.sum_eq_zero
    intro x hx
    rcases List.mem_map.mp hx with ⟨u, hu, rfl⟩
    cases hf : mods.find? (fun m => m.uuid == u) with
    | none => rfl
    | some m =>
      have hmem : m ∈ mods := List.mem_of_find?_eq_some hf
      have huuid : m.uuid = u := by simpa using List.find?_some hf
      show (if (m.subjectArea.any fun a => normalizeName a == normalizeName area.name) = true
          then m.ects else 0) = 0
      rw [hnone u hu m hmem huuid]
      simp
  rw [hmain, hzero]

/-- Requirement fixture: subject area "AI" with bounds 5 and 10. -/
def reqAI : SubjectAreaRequirement := { name := "AI", minCredits := 5, maxCredits := 10 }

/-- Catalog fixture: a 5-ECTS module declaring subject area "AI". -/
def modAI : Module :=
  { uuid := "uAI", id := 9, code := "AI1", name := "AI basics", ects := 5,
    prerequisites := [], prerequisiteCodes := [], semesters := [1], subjectArea := ["AI"] }

/-- C6 witness: with the "AI" module selected, the progress map credits the
"AI" category with exactly the spec-side sum over selected declaring
instances. -/
theorem calculateSubjectAreaProgress_spec_witness :
    mapGet? (calculateSubjectAreaProgress [reqAI] [modAI] ["uAI"]) (normalizeName "AI") =
      some (selectedCreditsFor [modAI] ["uAI"] (normalizeName "AI")) :=
  (calculateSubjectAreaProgress_spec [reqAI] [modAI] ["uAI"] (by decide) reqAI
    (by simp)).1

end Planner
